import Mathlib

/-!
Verification of the auto-secret reconciliation controller.

The development shallowly embeds the reconciliation engine of the controller:

* `src/secret_types.rs` — the `AutoSecretType` generation-kind enum together
  with its string (de)serialization and `TryFrom<&str>` conversion, expanded
  from the `str_enum!` macro.
* `src/main.rs` — `reconcile`, `check_secret`, `remove_secret`,
  `annotation_name`, `error_policy` and the `ControllerError` taxonomy.
* `src/prelude.rs` — the `SecretExt::retain` helper (its `remove_secret` is
  the same code as the one in `main.rs`).

`BTreeMap<String, _>` is embedded as an association list with the map
operations used by the source (`get`, `insert`, `remove`, `retain`, `keys`,
`contains_key`).  Kubernetes I/O (`get_secret` / `patch_secret`) is embedded
by passing the fetched secret in as a value and recording the store calls the
function issues in an operation trace.  The nondeterministic
`AutoSecretType::generate` (uuid/ulid crates) is embedded as an oracle
argument `fresh : String → AutoSecretType → ByteStr` supplying the bytes
generated for a given entry during the pass.
-/

namespace AutoSecretCtrl

/-- The bytes of a Kubernetes `ByteString` value. -/
abbrev ByteStr := List Nat

/-- `AutoSecretType` (secret_types.rs lines 123-129): the closed set of
generation kinds, variants `Uuid = "uuid"` and `Ulid = "ulid"`. -/
inductive AutoSecretType where
  | Uuid
  | Ulid
  deriving DecidableEq, Repr

/-- `BTreeMap::get` on the association-list embedding of a string-keyed map. -/
def getA {α : Type} (m : List (String × α)) (k : String) : Option α :=
  (m.find? (fun p => p.1 == k)).map (·.2)

/-- `BTreeMap::contains_key`. -/
def containsA {α : Type} (m : List (String × α)) (k : String) : Bool :=
  (getA m k).isSome

/-- `BTreeMap::remove` (dropping the entry under key `k`). -/
def removeA {α : Type} (m : List (String × α)) (k : String) : List (String × α) :=
  m.filter (fun p => !(p.1 == k))

/-- `BTreeMap::insert` (binding `k` to `v`, replacing any previous binding). -/
def insertA {α : Type} (m : List (String × α)) (k : String) (v : α) : List (String × α) :=
  (k, v) :: removeA m k

/-- `ANNOTATION_PREFIX` (main.rs line 204, prelude.rs line 221). -/
def ANNOTATION_PREFIX : String := "autosecrets.webstep.no/"

/-- `annotation_name` (main.rs lines 206-208): the annotation key for entry
`name` is the recognized prefix followed by the entry name. -/
def annotation_name (name : String) : String := ANNOTATION_PREFIX ++ name

/-- `str::starts_with`, used by the `annotations.retain` filter
(main.rs line 145). -/
def starts_with (s p : String) : Bool := p.data.isPrefixOf s.data

/-- The managed portion of a Kubernetes `Secret`: its annotation map
(`metadata.annotations`) and its data map (`data`).  An absent map is
embedded as the empty list, matching the `get_or_insert_with(Default)`
calls of the source (main.rs lines 152-153). -/
structure SecretState where
  annotations : List (String × String)
  data : List (String × ByteStr)
  deriving DecidableEq, Repr

/-- `remove_secret` (main.rs lines 198-202, prelude.rs lines 246-250):
drop the entry's prefixed annotation and its data value. -/
def remove_secret (s : SecretState) (name : String) : SecretState :=
  ⟨removeA s.annotations (annotation_name name), removeA s.data name⟩

/-- Which branch of `check_secret`'s `match` an entry took: the
"skipping … due to same hash" early return, the "updating … due to hash
change" fall-through, or the "creating new secret" fall-through
(main.rs lines 184-191). -/
inductive CheckAction where
  | skipped
  | updated
  | created
  deriving DecidableEq, Repr

/-- Modelled from the spec: `hash` (main.rs lines 235-240, prelude.rs lines
252-257) feeds the generation kind's derived `Hash` encoding into a
`seahash::SeaHasher` and hex-encodes the little-endian bytes of the 64-bit
digest.  The `seahash` crate is an external dependency whose implementation
is not part of this repository, so per §3 of the spec ("contentHash — a
fixed-width digest computed over the *generation kind descriptor* of an
entry") the digest is modelled as the fixed-width hex encoding of the
little-endian bytes of the kind's discriminant: a deterministic fixed-width
digest of the kind descriptor under which distinct kinds have distinct
digests. -/
def hash (conf : AutoSecretType) : String :=
  match conf with
  | .Uuid => "0000000000000000"
  | .Ulid => "0100000000000000"

/-- `check_secret` (main.rs lines 174-196).  The value written on the
`updated`/`created` branches is `ByteString(conf.generate().into_bytes())`;
the generator draw is supplied by the oracle `fresh`. -/
def check_secret (s : SecretState) (name : String) (conf : AutoSecretType)
    (fresh : String → AutoSecretType → ByteStr) : SecretState × CheckAction :=
  let an := annotation_name name
  let expected := getA s.annotations an
  let actual := hash conf
  match expected with
  | some e =>
    if e = actual then (s, .skipped)
    else (⟨insertA s.annotations an actual, insertA s.data name (fresh name conf)⟩, .updated)
  | none =>
    (⟨insertA s.annotations an actual, insertA s.data name (fresh name conf)⟩, .created)

/-- The `for name in to_remove { remove_secret(...) }` loop
(main.rs lines 161-163, and prelude.rs lines 173-175). -/
def run_removes (names : List String) (s : SecretState) : SecretState :=
  names.foldl remove_secret s

/-- The `for (name, conf) in &resource.spec.secrets { check_secret(...) }`
loop (main.rs lines 165-167), also recording which branch each entry took. -/
def run_checks (spec : List (String × AutoSecretType))
    (fresh : String → AutoSecretType → ByteStr) (s : SecretState) :
    SecretState × List (String × CheckAction) :=
  match spec with
  | [] => (s, [])
  | (n, c) :: rest =>
    let step := check_secret s n c fresh
    let restRes := run_checks rest fresh step.1
    (restRes.1, (n, step.2) :: restRes.2)

/-- The state `reconcile` starts from (main.rs lines 133-153): a fresh secret
whose annotations are the fetched secret's annotations retained to keys
starting with the recognized prefix and whose data is the fetched secret's
data, or empty maps when no secret was fetched. -/
def initState (existing : Option SecretState) : SecretState :=
  match existing with
  | some e => ⟨e.annotations.filter (fun kv => starts_with kv.1 ANNOTATION_PREFIX), e.data⟩
  | none => ⟨[], []⟩

/-- `to_remove` (main.rs lines 155-159): the data keys whose name the desired
spec's `secrets` map does not contain. -/
def to_remove_list (spec : List (String × AutoSecretType)) (s : SecretState) : List String :=
  (s.data.map (·.1)).filter (fun n => !(containsA spec n))

/-- The outcome of one reconcile pass over the fetched state: the state handed
to the single apply call, the `to_remove` list, and the `check_secret` branch
taken for each desired entry in processing order. -/
structure ReconcileResult where
  state : SecretState
  toRemove : List String
  actions : List (String × CheckAction)
  deriving DecidableEq, Repr

/-- The reconcile pass of `reconcile` between the fetch and the apply
(main.rs lines 143-167). -/
def reconcile_core (spec : List (String × AutoSecretType)) (existing : Option SecretState)
    (fresh : String → AutoSecretType → ByteStr) : ReconcileResult :=
  let s0 := initState existing
  let tr := to_remove_list spec s0
  let s1 := run_removes tr s0
  let checked := run_checks spec fresh s1
  ⟨checked.1, tr, checked.2⟩

/-- `ControllerError` (main.rs lines 242-252).  The `kube::Error` payloads of
the two store-failure variants play no role in the claims and are dropped. -/
inductive ControllerError where
  | SecretGetFailed
  | SecretApplyFailed
  | MissingObjectKey (key : String)
  deriving DecidableEq, Repr

/-- `kube::runtime::controller::Action` as the source uses it:
`Action::await_change()` or `Action::requeue(duration)`, the duration in
seconds. -/
inductive Action where
  | awaitChange
  | requeue (secs : Nat)
  deriving DecidableEq, Repr

/-- `ObjectMeta` as `reconcile` reads it: the optional `.metadata.namespace`
and `.metadata.name` fields (`namespace` is a Lean keyword, hence the field
name `nspace`). -/
structure ObjectMeta where
  nspace : Option String
  name : Option String
  deriving DecidableEq, Repr

/-- An `AutoSecret` resource as `reconcile` reads it: its metadata and its
`spec.secrets` map (main.rs lines 30-35). -/
structure AutoSecretResource where
  metadata : ObjectMeta
  spec : List (String × AutoSecretType)
  deriving Repr

/-- One call `reconcile` issues against the secret store: the
`get_secret` read or the `patch_secret` server-side apply. -/
inductive StoreOp where
  | getOp (name : String)
  | applyOp (name : String) (state : SecretState)
  deriving DecidableEq, Repr

/-- `reconcile` (main.rs lines 116-172).  The fetched secret is passed in as
`store` and the store calls the function issues are returned as a trace:
an error before the fetch leaves the trace empty. -/
def reconcile (resource : AutoSecretResource) (store : Option SecretState)
    (fresh : String → AutoSecretType → ByteStr) :
    Except ControllerError Action × List StoreOp :=
  match resource.metadata.nspace with
  | none => (Except.error (ControllerError.MissingObjectKey ".metadata.namespace"), [])
  | some _ =>
    match resource.metadata.name with
    | none => (Except.error (ControllerError.MissingObjectKey ".metadata.name"), [])
    | some name =>
      let res := reconcile_core resource.spec store fresh
      (Except.ok Action.awaitChange, [StoreOp.getOp name, StoreOp.applyOp name res.state])

/-- `error_policy` (main.rs lines 230-233): requeue after a fixed
`Duration::from_secs(15)`, whatever the error and context. -/
def error_policy (_e : ControllerError) (_ctx : Unit) : Action :=
  Action.requeue 15

/-- The serde `invalid_value` error raised by the `str_enum!` visitor
(secret_types.rs line 70): the unexpected string and the visitor's
`expecting` description. -/
structure DeError where
  unexpected : String
  expected : String
  deriving DecidableEq, Repr

/-- The `expecting` description produced by `one_of!("uuid", "ulid")`
(secret_types.rs lines 5-7 and 58-60). -/
def AutoSecretType.expecting : String := "either 'uuid', or 'ulid'"

/-- `AutoSecretType::deserialize`'s `visit_str` (secret_types.rs lines 62-72,
expanded for the variants of lines 123-129): `"uuid"` and `"ulid"` succeed,
anything else is an `invalid_value` error. -/
def AutoSecretType.visit_str (v : String) : Except DeError AutoSecretType :=
  if v = "uuid" then Except.ok AutoSecretType.Uuid
  else if v = "ulid" then Except.ok AutoSecretType.Ulid
  else Except.error ⟨v, AutoSecretType.expecting⟩

/-- `TryFrom<&str> for AutoSecretType` (secret_types.rs lines 92-103,
expanded for the variants of lines 123-129). -/
def AutoSecretType.try_from (v : String) : Except Unit AutoSecretType :=
  if v = "uuid" then Except.ok AutoSecretType.Uuid
  else if v = "ulid" then Except.ok AutoSecretType.Ulid
  else Except.error ()

/-- The successfully parsed value of an `Except`, if any. -/
def exceptOk {ε α : Type} : Except ε α → Option α
  | .ok a => some a
  | .error _ => none

/-- `SecretExt::retain` (prelude.rs lines 160-178): collect the data entries
the predicate accepts, `remove_secret` each of them, and report whether the
collected list was nonempty. -/
def secretRetain (s : SecretState) (filter : String → ByteStr → Bool) :
    SecretState × Bool :=
  let to_remove := (s.data.filter (fun p => filter p.1 p.2)).map (·.1)
  let modified := !to_remove.isEmpty
  (run_removes to_remove s, modified)

/-- Invariant I1 of the spec (§3): every entry name carrying a prefixed hash
tag in the annotations is present in the value mapping. -/
def inv_I1 (s : SecretState) : Prop :=
  ∀ n : String, (getA s.annotations (annotation_name n)).isSome → (getA s.data n).isSome

end AutoSecretCtrl

namespace AutoSecretCtrl

theorem annotation_name_inj {a b : String} (h : annotation_name a = annotation_name b) :
    a = b := by
  unfold annotation_name at h
  have h2 := congrArg String.data h
  rw [String.data_append, String.data_append] at h2
  exact String.ext (List.append_cancel_left h2)

theorem starts_with_annotation_name (n : String) :
    starts_with (annotation_name n) ANNOTATION_PREFIX = true := by
  unfold starts_with annotation_name
  rw [String.data_append, List.isPrefixOf_iff_prefix]
  exact List.prefix_append _ _

theorem ne_annotation_name_of_not_starts {k : String}
    (h : starts_with k ANNOTATION_PREFIX = false) (n : String) :
    k ≠ annotation_name n := by
  intro hk
  rw [hk, starts_with_annotation_name] at h
  exact Bool.noConfusion h

theorem getA_cons {α : Type} (p : String × α) (t : List (String × α)) (k : String) :
    getA (p :: t) k = if p.1 = k then some p.2 else getA t k := by
  by_cases h : p.1 = k
  · simp [getA, List.find?, h]
  · have hb : (p.1 == k) = false := by rw [beq_eq_false_iff_ne]; exact h
    simp [getA, List.find?, hb, h]

theorem removeA_cons {α : Type} (p : String × α) (t : List (String × α)) (k : String) :
    removeA (p :: t) k = if p.1 = k then removeA t k else p :: removeA t k := by
  by_cases h : p.1 = k
  · simp [removeA, List.filter_cons, h]
  · have hb : (p.1 == k) = false := by rw [beq_eq_false_iff_ne]; exact h
    simp [removeA, List.filter_cons, hb, h]

theorem getA_removeA {α : Type} (m : List (String × α)) (k k' : String) :
    getA (removeA m k) k' = if k' = k then none else getA m k' := by
  induction m with
  | nil => simp [getA, removeA]
  | cons p t ih =>
    rw [removeA_cons]
    by_cases hpk : p.1 = k
    · rw [if_pos hpk, ih, getA_cons]
      by_cases hk : k' = k
      · simp [hk]
      · have : ¬ p.1 = k' := by rw [hpk]; exact fun hh => hk hh.symm
        simp [hk, this]
    · rw [if_neg hpk, getA_cons, getA_cons]
      by_cases hp' : p.1 = k'
      · have hk : ¬ k' = k := by rw [← hp']; exact fun hh => hpk hh
        simp [hp', hk]
      · simp [hp', ih]

theorem getA_insertA {α : Type} (m : List (String × α)) (k k' : String) (v : α) :
    getA (insertA m k v) k' = if k' = k then some v else getA m k' := by
  rw [insertA.eq_def, getA_cons, getA_removeA]
  by_cases h : k = k'
  · simp [h]
  · have h' : ¬ k' = k := fun hh => h hh.symm
    simp [h, h']

theorem getA_filter_key {α : Type} (m : List (String × α)) (q : String → Bool) (k : String) :
    getA (m.filter (fun p => q p.1)) k = if q k then getA m k else none := by
  induction m with
  | nil => simp [getA]
  | cons p t ih =>
    rw [List.filter_cons]
    by_cases hq : q p.1
    · rw [if_pos hq, getA_cons, getA_cons]
      by_cases hp : p.1 = k
      · rw [← hp, hq]; simp
      · simp [hp, ih]
    · rw [if_neg (by simpa using hq), ih]
      by_cases hqk : q k
      · have hp : ¬ p.1 = k := fun hh => hq (by rw [hh]; exact hqk)
        simp [hqk, getA_cons, hp]
      · simp [hqk]

theorem getA_isSome_iff_mem_keys {α : Type} (m : List (String × α)) (k : String) :
    (getA m k).isSome = true ↔ k ∈ m.map (·.1) := by
  unfold getA
  have hmap : ∀ (o : Option (String × α)), (o.map (·.2)).isSome = o.isSome := by
    intro o; cases o <;> rfl
  rw [hmap, List.find?_isSome]
  constructor
  · rintro ⟨p, hp, hpk⟩
    exact List.mem_map.mpr ⟨p, hp, by simpa using hpk⟩
  · intro h
    obtain ⟨p, hp, hpk⟩ := List.mem_map.mp h
    exact ⟨p, hp, by simpa using hpk⟩

theorem getA_eq_some_of_mem_nodup {α : Type} {m : List (String × α)} {k : String} {v : α}
    (hnd : (m.map (·.1)).Nodup) (hmem : (k, v) ∈ m) : getA m k = some v := by
  induction m with
  | nil => cases hmem
  | cons p t ih =>
    rw [List.map_cons, List.nodup_cons] at hnd
    rw [getA_cons]
    rcases List.mem_cons.mp hmem with h | h
    · rw [← h]; simp
    · have hp : ¬ p.1 = k := by
        intro hh
        exact hnd.1 (by rw [hh]; exact List.mem_map.mpr ⟨(k, v), h, rfl⟩)
      simp [hp, ih hnd.2 h]

theorem mem_of_getA_eq_some {α : Type} {m : List (String × α)} {k : String} {v : α}
    (h : getA m k = some v) : (k, v) ∈ m := by
  unfold getA at h
  obtain ⟨p, hfind, hv⟩ := Option.map_eq_some'.mp h
  have hpk := List.find?_some hfind
  have hpm := List.mem_of_find?_eq_some hfind
  have : p.1 = k := by simpa using hpk
  have : p = (k, v) := by
    cases p
    simp_all
  rw [← this]; exact hpm

theorem containsA_of_mem {α : Type} {m : List (String × α)} {p : String × α}
    (h : p ∈ m) : containsA m p.1 = true := by
  unfold containsA
  rw [getA_isSome_iff_mem_keys]
  exact List.mem_map.mpr ⟨p, h, rfl⟩

theorem exists_getA_eq_some_of_containsA {α : Type} {m : List (String × α)} {k : String}
    (h : containsA m k = true) : ∃ v, getA m k = some v := by
  unfold containsA at h
  exact Option.isSome_iff_exists.mp h

end AutoSecretCtrl

namespace AutoSecretCtrl

theorem remove_secret_ann (s : SecretState) (n k : String) :
    getA (remove_secret s n).annotations k =
      if k = annotation_name n then none else getA s.annotations k := by
  unfold remove_secret
  exact getA_removeA _ _ _

theorem remove_secret_data (s : SecretState) (n m : String) :
    getA (remove_secret s n).data m = if m = n then none else getA s.data m := by
  unfold remove_secret
  exact getA_removeA _ _ _

theorem run_removes_nil (s : SecretState) : run_removes [] s = s := rfl

theorem run_removes_cons (n : String) (t : List String) (s : SecretState) :
    run_removes (n :: t) s = run_removes t (remove_secret s n) := rfl

theorem run_removes_ann (names : List String) (s : SecretState) (k : String) :
    getA (run_removes names s).annotations k =
      if ∃ n ∈ names, k = annotation_name n then none else getA s.annotations k := by
  induction names generalizing s with
  | nil => simp [run_removes_nil]
  | cons n t ih =>
    rw [run_removes_cons, ih, remove_secret_ann]
    by_cases hk : k = annotation_name n
    · simp [hk]
    · by_cases ht : ∃ m ∈ t, k = annotation_name m
      · simp [hk, ht]
      · have : ¬ ∃ m ∈ n :: t, k = annotation_name m := by
          rintro ⟨m, hm, rfl⟩
          rcases List.mem_cons.mp hm with rfl | hm'
          · exact hk rfl
          · exact ht ⟨m, hm', rfl⟩
        simp [this, hk, ht]

theorem run_removes_data (names : List String) (s : SecretState) (m : String) :
    getA (run_removes names s).data m =
      if m ∈ names then none else getA s.data m := by
  induction names generalizing s with
  | nil => simp [run_removes_nil]
  | cons n t ih =>
    rw [run_removes_cons, ih, remove_secret_data]
    by_cases hm : m = n
    · simp [hm]
    · by_cases ht : m ∈ t
      · simp [hm, ht]
      · have : ¬ m ∈ n :: t := by
          intro h
          rcases List.mem_cons.mp h with h | h
          · exact hm h
          · exact ht h
        simp [this, hm, ht]

theorem check_secret_ann_frame (s : SecretState) (n : String) (c : AutoSecretType)
    (fresh : String → AutoSecretType → ByteStr) (k : String) (h : k ≠ annotation_name n) :
    getA (check_secret s n c fresh).1.annotations k = getA s.annotations k := by
  unfold check_secret
  cases hg : getA s.annotations (annotation_name n) with
  | none => simp [hg, getA_insertA, h]
  | some e =>
    by_cases he : e = hash c
    · simp [hg, he]
    · simp [hg, he, getA_insertA, h]

theorem check_secret_data_frame (s : SecretState) (n : String) (c : AutoSecretType)
    (fresh : String → AutoSecretType → ByteStr) (m : String) (h : m ≠ n) :
    getA (check_secret s n c fresh).1.data m = getA s.data m := by
  unfold check_secret
  cases hg : getA s.annotations (annotation_name n) with
  | none => simp [hg, getA_insertA, h]
  | some e =>
    by_cases he : e = hash c
    · simp [hg, he]
    · simp [hg, he, getA_insertA, h]

theorem check_secret_ann_hit (s : SecretState) (n : String) (c : AutoSecretType)
    (fresh : String → AutoSecretType → ByteStr) :
    getA (check_secret s n c fresh).1.annotations (annotation_name n) = some (hash c) := by
  unfold check_secret
  cases hg : getA s.annotations (annotation_name n) with
  | none => simp [hg, getA_insertA]
  | some e =>
    by_cases he : e = hash c
    · simp [hg, he]
    · simp [hg, he, getA_insertA]

theorem check_secret_data_hit (s : SecretState) (n : String) (c : AutoSecretType)
    (fresh : String → AutoSecretType → ByteStr) :
    getA (check_secret s n c fresh).1.data n =
      match getA s.annotations (annotation_name n) with
      | some e => if e = hash c then getA s.data n else some (fresh n c)
      | none => some (fresh n c) := by
  unfold check_secret
  cases hg : getA s.annotations (annotation_name n) with
  | none => simp [hg, getA_insertA]
  | some e =>
    by_cases he : e = hash c
    · simp [hg, he]
    · simp [hg, he, getA_insertA]

theorem check_secret_action (s : SecretState) (n : String) (c : AutoSecretType)
    (fresh : String → AutoSecretType → ByteStr) :
    (check_secret s n c fresh).2 =
      match getA s.annotations (annotation_name n) with
      | some e => if e = hash c then CheckAction.skipped else CheckAction.updated
      | none => CheckAction.created := by
  unfold check_secret
  cases hg : getA s.annotations (annotation_name n) with
  | none => simp [hg]
  | some e =>
    by_cases he : e = hash c
    · simp [hg, he]
    · simp [hg, he]

end AutoSecretCtrl

namespace AutoSecretCtrl

theorem run_checks_nil (fresh : String → AutoSecretType → ByteStr) (s : SecretState) :
    run_checks [] fresh s = (s, []) := rfl

theorem run_checks_cons (n : String) (c : AutoSecretType)
    (rest : List (String × AutoSecretType)) (fresh : String → AutoSecretType → ByteStr)
    (s : SecretState) :
    run_checks ((n, c) :: rest) fresh s =
      ((run_checks rest fresh (check_secret s n c fresh).1).1,
       (n, (check_secret s n c fresh).2) :: (run_checks rest fresh (check_secret s n c fresh).1).2) := rfl

theorem run_checks_ann_frame (spec : List (String × AutoSecretType))
    (fresh : String → AutoSecretType → ByteStr) (s : SecretState) (k : String)
    (h : ∀ p ∈ spec, annotation_name p.1 ≠ k) :
    getA (run_checks spec fresh s).1.annotations k = getA s.annotations k := by
  induction spec generalizing s with
  | nil => simp [run_checks_nil]
  | cons p rest ih =>
    obtain ⟨n, c⟩ := p
    rw [run_checks_cons]
    have hhd : annotation_name n ≠ k := h (n, c) (List.mem_cons_self _ _)
    rw [ih _ (fun q hq => h q (List.mem_cons_of_mem _ hq)),
      check_secret_ann_frame _ _ _ _ _ (fun hh => hhd hh.symm)]

theorem run_checks_data_frame (spec : List (String × AutoSecretType))
    (fresh : String → AutoSecretType → ByteStr) (s : SecretState) (m : String)
    (h : ∀ p ∈ spec, p.1 ≠ m) :
    getA (run_checks spec fresh s).1.data m = getA s.data m := by
  induction spec generalizing s with
  | nil => simp [run_checks_nil]
  | cons p rest ih =>
    obtain ⟨n, c⟩ := p
    rw [run_checks_cons]
    have hhd : n ≠ m := h (n, c) (List.mem_cons_self _ _)
    rw [ih _ (fun q hq => h q (List.mem_cons_of_mem _ hq)),
      check_secret_data_frame _ _ _ _ _ (fun hh => hhd hh.symm)]

theorem run_checks_ann_hit (spec : List (String × AutoSecretType))
    (fresh : String → AutoSecretType → ByteStr) (s : SecretState)
    {n : String} {c : AutoSecretType}
    (hnd : (spec.map (·.1)).Nodup) (hmem : (n, c) ∈ spec) :
    getA (run_checks spec fresh s).1.annotations (annotation_name n) = some (hash c) := by
  induction spec generalizing s with
  | nil => cases hmem
  | cons p rest ih =>
    obtain ⟨m, c'⟩ := p
    rw [List.map_cons, List.nodup_cons] at hnd
    rw [run_checks_cons]
    rcases List.mem_cons.mp hmem with h | h
    · injection h with hn hc
      subst hn; subst hc
      have hframe : ∀ q ∈ rest, annotation_name q.1 ≠ annotation_name n := by
        intro q hq heq
        exact hnd.1 (annotation_name_inj heq ▸ List.mem_map.mpr ⟨q, hq, rfl⟩)
      rw [run_checks_ann_frame _ _ _ _ hframe, check_secret_ann_hit]
    · have hmn : m ≠ n := by
        intro hh
        exact hnd.1 (hh ▸ List.mem_map.mpr ⟨(n, c), h, rfl⟩)
      rw [ih _ hnd.2 h]

end AutoSecretCtrl

namespace AutoSecretCtrl

theorem run_checks_data_hit (spec : List (String × AutoSecretType))
    (fresh : String → AutoSecretType → ByteStr) (s : SecretState)
    {n : String} {c : AutoSecretType}
    (hnd : (spec.map (·.1)).Nodup) (hmem : (n, c) ∈ spec) :
    getA (run_checks spec fresh s).1.data n =
      match getA s.annotations (annotation_name n) with
      | some e => if e = hash c then getA s.data n else some (fresh n c)
      | none => some (fresh n c) := by
  induction spec generalizing s with
  | nil => cases hmem
  | cons p rest ih =>
    obtain ⟨m, c'⟩ := p
    rw [List.map_cons, List.nodup_cons] at hnd
    rw [run_checks_cons]
    rcases List.mem_cons.mp hmem with h | h
    · injection h with hn hc
      subst hn; subst hc
      have hframe : ∀ q ∈ rest, q.1 ≠ n := by
        intro q hq heq
        exact hnd.1 (heq ▸ List.mem_map.mpr ⟨q, hq, rfl⟩)
      rw [run_checks_data_frame _ _ _ _ hframe, check_secret_data_hit]
    · have hmn : m ≠ n := by
        intro hh
        exact hnd.1 (hh ▸ List.mem_map.mpr ⟨(n, c), h, rfl⟩)
      rw [ih _ hnd.2 h,
        check_secret_ann_frame s m c' fresh (annotation_name n)
          (fun hh => hmn (annotation_name_inj hh).symm),
        check_secret_data_frame s m c' fresh n (fun hh => hmn hh.symm)]

theorem run_checks_action_mem (spec : List (String × AutoSecretType))
    (fresh : String → AutoSecretType → ByteStr) (s : SecretState)
    {n : String} {c : AutoSecretType}
    (hnd : (spec.map (·.1)).Nodup) (hmem : (n, c) ∈ spec) :
    (n, (match getA s.annotations (annotation_name n) with
         | some e => if e = hash c then CheckAction.skipped else CheckAction.updated
         | none => CheckAction.created)) ∈ (run_checks spec fresh s).2 := by
  induction spec generalizing s with
  | nil => cases hmem
  | cons p rest ih =>
    obtain ⟨m, c'⟩ := p
    rw [List.map_cons, List.nodup_cons] at hnd
    rw [run_checks_cons]
    rcases List.mem_cons.mp hmem with h | h
    · injection h with hn hc
      subst hn; subst hc
      rw [check_secret_action]
      exact List.mem_cons_self _ _
    · have hmn : m ≠ n := by
        intro hh
        exact hnd.1 (hh ▸ List.mem_map.mpr ⟨(n, c), h, rfl⟩)
      have hmem' := ih (check_secret s m c' fresh).1 hnd.2 h
      rw [check_secret_ann_frame s m c' fresh (annotation_name n)
        (fun hh => hmn (annotation_name_inj hh).symm)] at hmem'
      exact List.mem_cons_of_mem _ hmem'

theorem run_checks_all_match (spec : List (String × AutoSecretType))
    (fresh : String → AutoSecretType → ByteStr) (s : SecretState)
    (h : ∀ p ∈ spec, getA s.annotations (annotation_name p.1) = some (hash p.2)) :
    run_checks spec fresh s = (s, spec.map (fun p => (p.1, CheckAction.skipped))) := by
  induction spec with
  | nil => simp [run_checks_nil]
  | cons p rest ih =>
    obtain ⟨n, c⟩ := p
    have hh : getA s.annotations (annotation_name n) = some (hash c) :=
      h (n, c) (List.mem_cons_self _ _)
    have hstep : check_secret s n c fresh = (s, CheckAction.skipped) := by
      simp [check_secret, hh]
    rw [run_checks_cons, hstep]
    rw [ih (fun q hq => h q (List.mem_cons_of_mem _ hq))]
    simp

end AutoSecretCtrl

namespace AutoSecretCtrl

theorem initState_none : initState none = ⟨[], []⟩ := rfl

theorem initState_some_ann (e : SecretState) (k : String) :
    getA (initState (some e)).annotations k =
      if starts_with k ANNOTATION_PREFIX then getA e.annotations k else none := by
  show getA (e.annotations.filter (fun kv => starts_with kv.1 ANNOTATION_PREFIX)) k = _
  exact getA_filter_key e.annotations (fun k => starts_with k ANNOTATION_PREFIX) k

theorem initState_some_data (e : SecretState) : (initState (some e)).data = e.data := rfl

theorem initState_tagged_ann (e : SecretState) (n : String) :
    getA (initState (some e)).annotations (annotation_name n) =
      getA e.annotations (annotation_name n) := by
  rw [initState_some_ann, starts_with_annotation_name]
  simp

theorem mem_to_remove_iff (spec : List (String × AutoSecretType)) (s : SecretState)
    (n : String) :
    n ∈ to_remove_list spec s ↔
      ((getA s.data n).isSome = true ∧ containsA spec n = false) := by
  unfold to_remove_list
  rw [List.mem_filter, getA_isSome_iff_mem_keys]
  simp

theorem reconcile_core_state (spec : List (String × AutoSecretType))
    (ex : Option SecretState) (fresh : String → AutoSecretType → ByteStr) :
    (reconcile_core spec ex fresh).state =
      (run_checks spec fresh
        (run_removes (to_remove_list spec (initState ex)) (initState ex))).1 := rfl

theorem reconcile_core_toRemove (spec : List (String × AutoSecretType))
    (ex : Option SecretState) (fresh : String → AutoSecretType → ByteStr) :
    (reconcile_core spec ex fresh).toRemove = to_remove_list spec (initState ex) := rfl

theorem reconcile_core_actions (spec : List (String × AutoSecretType))
    (ex : Option SecretState) (fresh : String → AutoSecretType → ByteStr) :
    (reconcile_core spec ex fresh).actions =
      (run_checks spec fresh
        (run_removes (to_remove_list spec (initState ex)) (initState ex))).2 := rfl

theorem not_removed_of_mem_spec {spec : List (String × AutoSecretType)}
    {p : String × AutoSecretType} (hp : p ∈ spec) {s : SecretState} :
    p.1 ∉ to_remove_list spec s := by
  intro hmem
  have h := (mem_to_remove_iff spec s p.1).mp hmem
  rw [containsA_of_mem hp] at h
  exact Bool.noConfusion h.2

/-- Any data key of the state a reconcile pass hands to apply is a key of the
desired spec's `secrets` map. -/
theorem result_data_key_contains (spec : List (String × AutoSecretType))
    (ex : Option SecretState) (fresh : String → AutoSecretType → ByteStr) (n : String)
    (h : (getA (reconcile_core spec ex fresh).state.data n).isSome = true) :
    containsA spec n = true := by
  by_cases hc : containsA spec n = true
  · exact hc
  · exfalso
    have hcf : containsA spec n = false := by
      revert hc; cases containsA spec n <;> simp
    have hframe : ∀ p ∈ spec, p.1 ≠ n := by
      intro p hp heq
      rw [← heq] at hcf
      rw [containsA_of_mem hp] at hcf
      exact Bool.noConfusion hcf
    rw [reconcile_core_state, run_checks_data_frame _ _ _ _ hframe,
      run_removes_data] at h
    by_cases htr : n ∈ to_remove_list spec (initState ex)
    · rw [if_pos htr] at h
      exact Bool.noConfusion h
    · rw [if_neg htr] at h
      exact htr ((mem_to_remove_iff _ _ _).mpr ⟨h, hcf⟩)

/-- No annotation key lacking the recognized prefix survives into the state a
reconcile pass hands to apply. -/
theorem result_ann_foreign_none (spec : List (String × AutoSecretType))
    (ex : Option SecretState) (fresh : String → AutoSecretType → ByteStr) (k : String)
    (h : starts_with k ANNOTATION_PREFIX = false) :
    getA (reconcile_core spec ex fresh).state.annotations k = none := by
  have hframe : ∀ p ∈ spec, annotation_name p.1 ≠ k :=
    fun p _ heq => ne_annotation_name_of_not_starts h p.1 heq.symm
  rw [reconcile_core_state, run_checks_ann_frame _ _ _ _ hframe, run_removes_ann]
  by_cases htr : ∃ m ∈ to_remove_list spec (initState ex), k = annotation_name m
  · rw [if_pos htr]
  · rw [if_neg htr]
    cases ex with
    | none => rfl
    | some e =>
      rw [initState_some_ann, h]
      simp

end AutoSecretCtrl

namespace AutoSecretCtrl

theorem hash_inj (a b : AutoSecretType) (h : hash a = hash b) : a = b := by
  cases a <;> cases b <;> first | rfl | exact absurd h (by decide)

/-- Every annotation key of the state carries the recognized prefix. -/
def annTagged (s : SecretState) : Prop :=
  ∀ p ∈ s.annotations, starts_with p.1 ANNOTATION_PREFIX = true

theorem annTagged_initState (ex : Option SecretState) : annTagged (initState ex) := by
  cases ex with
  | none => intro p hp; cases hp
  | some e =>
    intro p hp
    exact (List.mem_filter.mp hp).2

theorem annTagged_remove_secret {s : SecretState} (h : annTagged s) (n : String) :
    annTagged (remove_secret s n) := by
  intro p hp
  exact h p (List.mem_filter.mp hp).1

theorem annTagged_run_removes {s : SecretState} (h : annTagged s) (names : List String) :
    annTagged (run_removes names s) := by
  induction names generalizing s with
  | nil => exact h
  | cons n t ih => exact ih (annTagged_remove_secret h n)

theorem annTagged_check_secret {s : SecretState} (h : annTagged s) (n : String)
    (c : AutoSecretType) (fresh : String → AutoSecretType → ByteStr) :
    annTagged (check_secret s n c fresh).1 := by
  have hins : annTagged
      ⟨insertA s.annotations (annotation_name n) (hash c), insertA s.data n (fresh n c)⟩ := by
    intro p hp
    simp only [insertA] at hp
    rcases List.mem_cons.mp hp with rfl | hp'
    · exact starts_with_annotation_name n
    · exact h p (List.mem_filter.mp hp').1
  unfold check_secret
  cases hg : getA s.annotations (annotation_name n) with
  | none => simpa [hg] using hins
  | some e =>
    by_cases he : e = hash c
    · simpa [hg, he] using h
    · simpa [hg, he] using hins

theorem annTagged_run_checks {s : SecretState} (h : annTagged s)
    (spec : List (String × AutoSecretType)) (fresh : String → AutoSecretType → ByteStr) :
    annTagged (run_checks spec fresh s).1 := by
  induction spec generalizing s with
  | nil => exact h
  | cons p rest ih =>
    obtain ⟨n, c⟩ := p
    rw [run_checks_cons]
    exact ih (annTagged_check_secret h n c fresh)

theorem annTagged_result (spec : List (String × AutoSecretType)) (ex : Option SecretState)
    (fresh : String → AutoSecretType → ByteStr) :
    annTagged (reconcile_core spec ex fresh).state := by
  rw [reconcile_core_state]
  exact annTagged_run_checks (annTagged_run_removes (annTagged_initState ex) _) _ _

theorem initState_of_tagged {s : SecretState} (h : annTagged s) :
    initState (some s) = s := by
  obtain ⟨ann, dat⟩ := s
  show (⟨ann.filter (fun kv => starts_with kv.1 ANNOTATION_PREFIX), dat⟩ : SecretState) = _
  rw [List.filter_eq_self.mpr (fun p hp => h p hp)]

end AutoSecretCtrl

namespace AutoSecretCtrl

/-- C4: reconciling the state produced by a reconcile pass again with the same
desired spec is a no-op: nothing lands in `to_remove`, every desired entry
takes the "skipping … due to same hash" branch (so the generator is never
invoked), and the state handed to the second apply is identical to the first
pass's result. -/
theorem C4_second_reconcile_noop (spec : List (String × AutoSecretType)) (ex : Option SecretState)
    (fresh fresh2 : String → AutoSecretType → ByteStr)
    (hnd : (spec.map (·.1)).Nodup) :
    reconcile_core spec (some (reconcile_core spec ex fresh).state) fresh2 =
      ⟨(reconcile_core spec ex fresh).state, [],
        spec.map (fun p => (p.1, CheckAction.skipped))⟩ := by
  have h1 : initState (some (reconcile_core spec ex fresh).state) =
      (reconcile_core spec ex fresh).state :=
    initState_of_tagged (annTagged_result spec ex fresh)
  have h2 : to_remove_list spec (reconcile_core spec ex fresh).state = [] := by
    apply List.filter_eq_nil_iff.mpr
    intro n hn
    have hsome : (getA (reconcile_core spec ex fresh).state.data n).isSome = true :=
      (getA_isSome_iff_mem_keys _ _).mpr hn
    have hc := result_data_key_contains spec ex fresh n hsome
    simp [hc]
  have hmatch : ∀ p ∈ spec,
      getA (reconcile_core spec ex fresh).state.annotations (annotation_name p.1) =
        some (hash p.2) := by
    intro p hp
    have hp' : (p.1, p.2) ∈ spec := by rw [Prod.mk.eta]; exact hp
    rw [reconcile_core_state]
    exact run_checks_ann_hit _ _ _ hnd hp'
  have h3 : run_checks spec fresh2 (reconcile_core spec ex fresh).state =
      ((reconcile_core spec ex fresh).state,
        spec.map (fun p => (p.1, CheckAction.skipped))) :=
    run_checks_all_match _ _ _ hmatch
  show (⟨(run_checks spec fresh2
      (run_removes (to_remove_list spec (initState (some (reconcile_core spec ex fresh).state)))
        (initState (some (reconcile_core spec ex fresh).state)))).1,
      to_remove_list spec (initState (some (reconcile_core spec ex fresh).state)),
      (run_checks spec fresh2
      (run_removes (to_remove_list spec (initState (some (reconcile_core spec ex fresh).state)))
        (initState (some (reconcile_core spec ex fresh).state)))).2⟩ : ReconcileResult) = _
  rw [h1, h2, run_removes_nil, h3]

end AutoSecretCtrl

namespace AutoSecretCtrl

theorem tag_not_hit_by_removes (names : List String) {n : String} (hn : n ∉ names) :
    ¬ ∃ m ∈ names, annotation_name n = annotation_name m := by
  rintro ⟨m, hm, heq⟩
  exact hn (annotation_name_inj heq ▸ hm)

theorem spec_frame_of_not_contains {spec : List (String × AutoSecretType)} {n : String}
    (hcf : containsA spec n = false) : ∀ p ∈ spec, p.1 ≠ n := by
  intro p hp heq
  rw [← heq] at hcf
  rw [containsA_of_mem hp] at hcf
  exact Bool.noConfusion hcf

theorem inv_I1_preserved (spec : List (String × AutoSecretType)) (ex : Option SecretState)
    (fresh : String → AutoSecretType → ByteStr) (hnd : (spec.map (·.1)).Nodup)
    (hI1 : inv_I1 (initState ex)) :
    inv_I1 (reconcile_core spec ex fresh).state := by
  intro n h
  by_cases hc : containsA spec n = true
  · obtain ⟨c, hgc⟩ := exists_getA_eq_some_of_containsA hc
    have hmem := mem_of_getA_eq_some hgc
    have hntr : n ∉ to_remove_list spec (initState ex) := by
      intro htr
      have := ((mem_to_remove_iff _ _ _).mp htr).2
      rw [hc] at this
      exact Bool.noConfusion this
    rw [reconcile_core_state, run_checks_data_hit _ _ _ hnd hmem]
    cases hg : getA (run_removes (to_remove_list spec (initState ex)) (initState ex)).annotations
        (annotation_name n) with
    | none => simp
    | some e =>
      by_cases he : e = hash c
      · simp only [he, if_pos rfl]
        rw [run_removes_ann] at hg
        rw [if_neg (tag_not_hit_by_removes _ hntr)] at hg
        have hdat := hI1 n (by rw [hg]; rfl)
        rw [run_removes_data, if_neg hntr]
        exact hdat
      · simp [he]
  · exfalso
    have hcf : containsA spec n = false := by
      revert hc; cases containsA spec n <;> simp
    have hframe : ∀ p ∈ spec, annotation_name p.1 ≠ annotation_name n := by
      intro p hp heq
      exact spec_frame_of_not_contains hcf p hp (annotation_name_inj heq)
    rw [reconcile_core_state, run_checks_ann_frame _ _ _ _ hframe, run_removes_ann] at h
    by_cases htr : n ∈ to_remove_list spec (initState ex)
    · rw [if_pos] at h
      · exact Bool.noConfusion h
      · exact ⟨n, htr, rfl⟩
    · rw [if_neg (tag_not_hit_by_removes _ htr)] at h
      have hdat := hI1 n h
      exact htr ((mem_to_remove_iff _ _ _).mpr ⟨hdat, hcf⟩)

end AutoSecretCtrl

namespace AutoSecretCtrl

/-- Fate of a foreign data entry (one with no prefixed tag in the fetched
secret): it is overwritten with a freshly generated value when its name is
desired, and removed otherwise. -/
theorem foreign_data_fate (spec : List (String × AutoSecretType)) (ex : SecretState)
    (fresh : String → AutoSecretType → ByteStr) (n : String)
    (hnd : (spec.map (·.1)).Nodup)
    (hdata : (getA ex.data n).isSome = true)
    (htag : getA ex.annotations (annotation_name n) = none) :
    getA (reconcile_core spec (some ex) fresh).state.data n =
      match getA spec n with
      | some c => some (fresh n c)
      | none => none := by
  cases hg : getA spec n with
  | some c =>
    have hmem := mem_of_getA_eq_some hg
    have hs1 : getA (run_removes (to_remove_list spec (initState (some ex)))
        (initState (some ex))).annotations (annotation_name n) = none := by
      rw [run_removes_ann]
      by_cases hif : ∃ m ∈ to_remove_list spec (initState (some ex)),
          annotation_name n = annotation_name m
      · rw [if_pos hif]
      · rw [if_neg hif, initState_tagged_ann, htag]
    rw [reconcile_core_state, run_checks_data_hit _ _ _ hnd hmem, hs1]
  | none =>
    have hcf : containsA spec n = false := by unfold containsA; rw [hg]; rfl
    have htr : n ∈ to_remove_list spec (initState (some ex)) := by
      rw [mem_to_remove_iff, initState_some_data]
      exact ⟨hdata, hcf⟩
    rw [reconcile_core_state,
      run_checks_data_frame _ _ _ _ (spec_frame_of_not_contains hcf),
      run_removes_data, if_pos htr]

/-- A name of the `to_remove` list loses both its data value and its prefixed
annotation in the state handed to apply. -/
theorem removed_entry_gone (spec : List (String × AutoSecretType)) (ex : Option SecretState)
    (fresh : String → AutoSecretType → ByteStr) (n : String)
    (htr : n ∈ (reconcile_core spec ex fresh).toRemove) :
    getA (reconcile_core spec ex fresh).state.data n = none ∧
      getA (reconcile_core spec ex fresh).state.annotations (annotation_name n) = none := by
  rw [reconcile_core_toRemove] at htr
  have hcf : containsA spec n = false := ((mem_to_remove_iff _ _ _).mp htr).2
  constructor
  · rw [reconcile_core_state,
      run_checks_data_frame _ _ _ _ (spec_frame_of_not_contains hcf),
      run_removes_data, if_pos htr]
  · have hframe : ∀ p ∈ spec, annotation_name p.1 ≠ annotation_name n := by
      intro p hp heq
      exact spec_frame_of_not_contains hcf p hp (annotation_name_inj heq)
    rw [reconcile_core_state, run_checks_ann_frame _ _ _ _ hframe, run_removes_ann,
      if_pos ⟨n, htr, rfl⟩]

/-- A fetched data entry whose name the spec contains survives the pass with
some value (kept or regenerated, never deleted). -/
theorem desired_data_survives (spec : List (String × AutoSecretType)) (ex : SecretState)
    (fresh : String → AutoSecretType → ByteStr) (n : String)
    (hnd : (spec.map (·.1)).Nodup)
    (hdata : (getA ex.data n).isSome = true)
    (hc : containsA spec n = true) :
    (getA (reconcile_core spec (some ex) fresh).state.data n).isSome = true := by
  obtain ⟨c, hgc⟩ := exists_getA_eq_some_of_containsA hc
  have hmem := mem_of_getA_eq_some hgc
  have hntr : n ∉ to_remove_list spec (initState (some ex)) := by
    intro htr
    have hf := ((mem_to_remove_iff _ _ _).mp htr).2
    rw [hc] at hf
    exact Bool.noConfusion hf
  rw [reconcile_core_state, run_checks_data_hit _ _ _ hnd hmem]
  cases hg : getA (run_removes (to_remove_list spec (initState (some ex)))
      (initState (some ex))).annotations (annotation_name n) with
  | none => simp
  | some e =>
    by_cases he : e = hash c
    · simp only [he, if_pos rfl]
      rw [run_removes_data, if_neg hntr, initState_some_data]
      exact hdata
    · simp [he]

end AutoSecretCtrl

namespace AutoSecretCtrl

/-- For a desired name, the removal loop leaves the stored prefixed tag as
fetched. -/
theorem s1_tag_of_desired (spec : List (String × AutoSecretType)) (ex : SecretState)
    (n : String) (hc : containsA spec n = true) :
    getA (run_removes (to_remove_list spec (initState (some ex)))
        (initState (some ex))).annotations (annotation_name n) =
      getA ex.annotations (annotation_name n) := by
  have hntr : n ∉ to_remove_list spec (initState (some ex)) := by
    intro htr
    have hf := ((mem_to_remove_iff _ _ _).mp htr).2
    rw [hc] at hf
    exact Bool.noConfusion hf
  rw [run_removes_ann, if_neg (tag_not_hit_by_removes _ hntr), initState_tagged_ann]

theorem desired_entry_skip (spec : List (String × AutoSecretType)) (ex : SecretState)
    (fresh : String → AutoSecretType → ByteStr) (n : String) (c : AutoSecretType)
    (hnd : (spec.map (·.1)).Nodup) (hmem : (n, c) ∈ spec)
    (htag : getA ex.annotations (annotation_name n) = some (hash c)) :
    getA (reconcile_core spec (some ex) fresh).state.annotations (annotation_name n) =
        some (hash c) ∧
      getA (reconcile_core spec (some ex) fresh).state.data n = getA ex.data n ∧
      n ∉ (reconcile_core spec (some ex) fresh).toRemove ∧
      (n, CheckAction.skipped) ∈ (reconcile_core spec (some ex) fresh).actions := by
  have hc : containsA spec n = true := containsA_of_mem hmem
  have hs1 := s1_tag_of_desired spec ex n hc
  have hntr : n ∉ to_remove_list spec (initState (some ex)) := by
    intro htr
    have hf := ((mem_to_remove_iff _ _ _).mp htr).2
    rw [hc] at hf
    exact Bool.noConfusion hf
  refine ⟨?_, ?_, ?_, ?_⟩
  · rw [reconcile_core_state]
    exact run_checks_ann_hit _ _ _ hnd hmem
  · rw [reconcile_core_state, run_checks_data_hit _ _ _ hnd hmem, hs1, htag]
    change (if hash c = hash c then _ else _) = _
    rw [if_pos rfl, run_removes_data, if_neg hntr, initState_some_data]
  · rw [reconcile_core_toRemove]
    exact hntr
  · have := run_checks_action_mem spec fresh
      (run_removes (to_remove_list spec (initState (some ex))) (initState (some ex)))
      hnd hmem
    rw [hs1, htag] at this
    simp only [if_pos rfl] at this
    rw [reconcile_core_actions]
    exact this

theorem kind_change_regenerates (spec : List (String × AutoSecretType)) (ex : SecretState)
    (fresh : String → AutoSecretType → ByteStr) (n : String) (cOld cNew : AutoSecretType)
    (hnd : (spec.map (·.1)).Nodup) (hmem : (n, cNew) ∈ spec)
    (htag : getA ex.annotations (annotation_name n) = some (hash cOld))
    (hne : cOld ≠ cNew) :
    (n, CheckAction.updated) ∈ (reconcile_core spec (some ex) fresh).actions ∧
      getA (reconcile_core spec (some ex) fresh).state.annotations (annotation_name n) =
        some (hash cNew) ∧
      getA (reconcile_core spec (some ex) fresh).state.data n = some (fresh n cNew) := by
  have hc : containsA spec n = true := containsA_of_mem hmem
  have hs1 := s1_tag_of_desired spec ex n hc
  have hha : hash cOld ≠ hash cNew := fun h => hne (hash_inj _ _ h)
  refine ⟨?_, ?_, ?_⟩
  · have := run_checks_action_mem spec fresh
      (run_removes (to_remove_list spec (initState (some ex))) (initState (some ex)))
      hnd hmem
    rw [hs1, htag] at this
    simp only [if_neg hha] at this
    rw [reconcile_core_actions]
    exact this
  · rw [reconcile_core_state]
    exact run_checks_ann_hit _ _ _ hnd hmem
  · rw [reconcile_core_state, run_checks_data_hit _ _ _ hnd hmem, hs1, htag]
    change (if hash cOld = hash cNew then _ else _) = _
    rw [if_neg hha]

end AutoSecretCtrl

namespace AutoSecretCtrl

theorem secretRetain_fst (s : SecretState) (f : String → ByteStr → Bool) :
    (secretRetain s f).1 =
      run_removes ((s.data.filter (fun p => f p.1 p.2)).map (·.1)) s := rfl

theorem secretRetain_snd (s : SecretState) (f : String → ByteStr → Bool) :
    (secretRetain s f).2 =
      !((s.data.filter (fun p => f p.1 p.2)).map (·.1)).isEmpty := rfl

theorem mem_retain_removed_iff (s : SecretState) (f : String → ByteStr → Bool) (n : String) :
    n ∈ (s.data.filter (fun p => f p.1 p.2)).map (·.1) ↔
      ∃ p ∈ s.data, p.1 = n ∧ f p.1 p.2 = true := by
  rw [List.mem_map]
  constructor
  · rintro ⟨p, hp, rfl⟩
    have hm := List.mem_filter.mp hp
    exact ⟨p, hm.1, rfl, by simpa using hm.2⟩
  · rintro ⟨p, hp, rfl, hf⟩
    exact ⟨p, List.mem_filter.mpr ⟨hp, by simpa using hf⟩, rfl⟩

theorem retain_removes_accepted (s : SecretState) (f : String → ByteStr → Bool)
    {n : String} {v : ByteStr}
    (hget : getA s.data n = some v) (hf : f n v = true) :
    getA (secretRetain s f).1.data n = none ∧
      getA (secretRetain s f).1.annotations (annotation_name n) = none := by
  have hmem : n ∈ (s.data.filter (fun p => f p.1 p.2)).map (·.1) :=
    (mem_retain_removed_iff s f n).mpr ⟨(n, v), mem_of_getA_eq_some hget, rfl, hf⟩
  rw [secretRetain_fst]
  constructor
  · rw [run_removes_data, if_pos hmem]
  · rw [run_removes_ann, if_pos ⟨n, hmem, rfl⟩]

theorem retain_keeps_rejected (s : SecretState) (f : String → ByteStr → Bool)
    (hnd : (s.data.map (·.1)).Nodup) {n : String} {v : ByteStr}
    (hget : getA s.data n = some v) (hf : f n v = false) :
    getA (secretRetain s f).1.data n = some v := by
  have hnmem : n ∉ (s.data.filter (fun p => f p.1 p.2)).map (·.1) := by
    intro hmem
    obtain ⟨p, hp, hpn, hpf⟩ := (mem_retain_removed_iff s f n).mp hmem
    have hpv : getA s.data p.1 = some p.2 := getA_eq_some_of_mem_nodup hnd (by
      rw [← Prod.mk.eta (p := p)] at hp
      exact hp)
    rw [hpn, hget] at hpv
    have hv : p.2 = v := (Option.some.inj hpv).symm
    rw [hpn, hv] at hpf
    rw [hpf] at hf
    exact Bool.noConfusion hf
  rw [secretRetain_fst, run_removes_data, if_neg hnmem]
  exact hget

theorem retain_ann_frame (s : SecretState) (f : String → ByteStr → Bool) (k : String)
    (h : ∀ p ∈ s.data, f p.1 p.2 = true → k ≠ annotation_name p.1) :
    getA (secretRetain s f).1.annotations k = getA s.annotations k := by
  rw [secretRetain_fst, run_removes_ann]
  rw [if_neg]
  rintro ⟨m, hm, rfl⟩
  obtain ⟨p, hp, hpn, hpf⟩ := (mem_retain_removed_iff s f m).mp hm
  exact h p hp hpf (by rw [hpn])

theorem retain_modified_iff (s : SecretState) (f : String → ByteStr → Bool) :
    (secretRetain s f).2 = true ↔ ∃ p ∈ s.data, f p.1 p.2 = true := by
  rw [secretRetain_snd]
  rw [Bool.not_eq_true']
  constructor
  · intro h
    rcases hn : s.data.filter (fun p => f p.1 p.2) with _ | ⟨p, t⟩
    · rw [hn] at h
      simp at h
    · have hp := List.mem_filter.mp (hn ▸ List.mem_cons_self p t)
      exact ⟨p, hp.1, by simpa using hp.2⟩
  · rintro ⟨p, hp, hf⟩
    have hmem : p.1 ∈ (s.data.filter (fun q => f q.1 q.2)).map (·.1) :=
      (mem_retain_removed_iff s f p.1).mpr ⟨p, hp, rfl, hf⟩
    rcases hl : (s.data.filter (fun q => f q.1 q.2)).map (·.1) with _ | ⟨a, t⟩
    · rw [hl] at hmem
      cases hmem
    · rw [hl]
      rfl

end AutoSecretCtrl

namespace AutoSecretCtrl

/-- C1 (counterexample): the fetched secret holds a foreign annotation
`("team", "alpha")` (key without the recognized prefix) and a foreign data
pair `("x", [1, 2])` (no prefixed tag for `"x"`); after a reconcile pass with
an empty desired spec, neither appears in the state handed to apply: the
foreign annotation was filtered out and the foreign data entry was removed. -/
theorem C1_counterexample :
    getA (SecretState.mk [("team", "alpha")] [("x", [1, 2])]).annotations "team" =
        some "alpha" ∧
      starts_with "team" ANNOTATION_PREFIX = false ∧
      getA (SecretState.mk [("team", "alpha")] [("x", [1, 2])]).data "x" = some [1, 2] ∧
      getA (SecretState.mk [("team", "alpha")] [("x", [1, 2])]).annotations
        (annotation_name "x") = none ∧
      getA (reconcile_core [] (some (SecretState.mk [("team", "alpha")] [("x", [1, 2])]))
        (fun _ _ => [])).state.annotations "team" = none ∧
      getA (reconcile_core [] (some (SecretState.mk [("team", "alpha")] [("x", [1, 2])]))
        (fun _ _ => [])).state.data "x" = none := by
  decide

/-- C1 (amended): a reconcile pass strips every foreign pair from the state it
hands to the single apply call: no annotation key lacking the recognized
prefix survives, and a fetched data entry carrying no prefixed tag is removed
when its name is not desired and overwritten with a freshly generated value
when it is (preservation of foreign content is left to the server-side-apply
merge, not to the applied state). -/
theorem C1_foreign_pairs_stripped (spec : List (String × AutoSecretType))
    (ex : SecretState) (fresh : String → AutoSecretType → ByteStr)
    (hnd : (spec.map (·.1)).Nodup) :
    (∀ k, starts_with k ANNOTATION_PREFIX = false →
      getA (reconcile_core spec (some ex) fresh).state.annotations k = none) ∧
    (∀ n, (getA ex.data n).isSome = true →
      getA ex.annotations (annotation_name n) = none →
      getA (reconcile_core spec (some ex) fresh).state.data n =
        match getA spec n with
        | some c => some (fresh n c)
        | none => none) := by
  constructor
  · intro k hk
    exact result_ann_foreign_none spec (some ex) fresh k hk
  · intro n hdata htag
    exact foreign_data_fate spec ex fresh n hnd hdata htag

/-- C1 (witness): instantiation of the amended theorem on a concrete state
holding a foreign annotation and a foreign data entry. -/
theorem C1_witness :
    (([("a", AutoSecretType.Uuid)].map (·.1)).Nodup ∧
      starts_with "team" ANNOTATION_PREFIX = false) ∧
    getA (reconcile_core [("a", AutoSecretType.Uuid)]
      (some (SecretState.mk [("team", "alpha")] [("x", [1, 2])]))
      (fun _ _ => [9])).state.annotations "team" = none ∧
    getA (reconcile_core [("a", AutoSecretType.Uuid)]
      (some (SecretState.mk [("team", "alpha")] [("x", [1, 2])]))
      (fun _ _ => [9])).state.data "x" = none :=
  ⟨⟨by decide, by decide⟩,
    (C1_foreign_pairs_stripped [("a", AutoSecretType.Uuid)]
      (SecretState.mk [("team", "alpha")] [("x", [1, 2])]) (fun _ _ => [9])
      (by decide)).1 "team" (by decide),
    by
      have h := (C1_foreign_pairs_stripped [("a", AutoSecretType.Uuid)]
        (SecretState.mk [("team", "alpha")] [("x", [1, 2])]) (fun _ _ => [9])
        (by decide)).2 "x" (by decide) (by decide)
      simpa using h⟩

end AutoSecretCtrl

namespace AutoSecretCtrl

/-- C2 (counterexample): with an empty desired spec, the fetched data entry
`"x"` — unmanaged, since it has no prefixed tag — is deleted anyway, while the
managed stale tag for `"z"` (prefixed tag with no data entry), whose name is
absent from the spec, survives the pass: the deleted set is keyed off the data
map, not off the managed tags. -/
theorem C2_counterexample :
    getA (SecretState.mk [(annotation_name "z", "h")] [("x", [7])]).annotations
        (annotation_name "x") = none ∧
      getA (SecretState.mk [(annotation_name "z", "h")] [("x", [7])]).data "x" = some [7] ∧
      (reconcile_core [] (some (SecretState.mk [(annotation_name "z", "h")] [("x", [7])]))
        (fun _ _ => [])).toRemove = ["x"] ∧
      getA (reconcile_core [] (some (SecretState.mk [(annotation_name "z", "h")] [("x", [7])]))
        (fun _ _ => [])).state.data "x" = none ∧
      getA (SecretState.mk [(annotation_name "z", "h")] [("x", [7])]).annotations
        (annotation_name "z") = some "h" ∧
      getA (reconcile_core [] (some (SecretState.mk [(annotation_name "z", "h")] [("x", [7])]))
        (fun _ _ => [])).state.annotations (annotation_name "z") = some "h" := by
  decide

/-- C2 (amended): the set of entries a reconcile pass deletes is exactly the
set of fetched *data* entries (managed or not) whose name is absent from the
desired spec's `secrets` map; each such entry loses both its data value and
its prefixed tag, and every fetched data entry whose name the spec contains
survives with some value.  A stale prefixed tag with no data entry is not
deleted. -/
theorem C2_removal_is_data_keyed (spec : List (String × AutoSecretType))
    (ex : SecretState) (fresh : String → AutoSecretType → ByteStr)
    (hnd : (spec.map (·.1)).Nodup) :
    (∀ n, n ∈ (reconcile_core spec (some ex) fresh).toRemove ↔
      ((getA ex.data n).isSome = true ∧ containsA spec n = false)) ∧
    (∀ n, n ∈ (reconcile_core spec (some ex) fresh).toRemove →
      getA (reconcile_core spec (some ex) fresh).state.data n = none ∧
      getA (reconcile_core spec (some ex) fresh).state.annotations (annotation_name n) = none) ∧
    (∀ n, (getA ex.data n).isSome = true → containsA spec n = true →
      (getA (reconcile_core spec (some ex) fresh).state.data n).isSome = true) := by
  refine ⟨?_, ?_, ?_⟩
  · intro n
    rw [reconcile_core_toRemove, mem_to_remove_iff, initState_some_data]
  · intro n htr
    exact removed_entry_gone spec (some ex) fresh n htr
  · intro n hdata hc
    exact desired_data_survives spec ex fresh n hnd hdata hc

/-- C2 (witness): instantiation of the amended theorem — entry `"a"` is
dropped from the spec while `"b"` is kept. -/
theorem C2_witness :
    ([("b", AutoSecretType.Ulid)].map (·.1)).Nodup ∧
    ("a" ∈ (reconcile_core [("b", AutoSecretType.Ulid)]
      (some (SecretState.mk [(annotation_name "a", hash AutoSecretType.Uuid),
        (annotation_name "b", hash AutoSecretType.Ulid)] [("a", [1]), ("b", [2])]))
      (fun _ _ => [9])).toRemove ↔
      ((getA (SecretState.mk [(annotation_name "a", hash AutoSecretType.Uuid),
        (annotation_name "b", hash AutoSecretType.Ulid)] [("a", [1]), ("b", [2])]).data
          "a").isSome = true ∧
        containsA [("b", AutoSecretType.Ulid)] "a" = false)) :=
  ⟨by decide,
    (C2_removal_is_data_keyed [("b", AutoSecretType.Ulid)]
      (SecretState.mk [(annotation_name "a", hash AutoSecretType.Uuid),
        (annotation_name "b", hash AutoSecretType.Ulid)] [("a", [1]), ("b", [2])])
      (fun _ _ => [9]) (by decide)).1 "a"⟩

/-- C3 (counterexample): a fetched state holding the prefixed tag for `"z"`
but no data entry `"z"` (the fetched state itself violates I1) still violates
I1 after the reconcile pass: the stale tag survives with no value, so the
produced state does not satisfy the invariant for every fetched state. -/
theorem C3_counterexample :
    ¬ inv_I1 (reconcile_core [] (some (SecretState.mk [(annotation_name "z", "h")] []))
      (fun _ _ => [])).state := by
  intro h
  have h1 : (getA (reconcile_core [] (some (SecretState.mk [(annotation_name "z", "h")] []))
      (fun _ _ => [])).state.annotations (annotation_name "z")).isSome = true := by decide
  have h2 := h "z" h1
  exact absurd h2 (by decide)

/-- C3 (amended): invariant I1 is *preserved*, not established: whenever the
state a reconcile pass starts from (the fetched secret with its annotations
retained to prefixed keys, or the synthesized empty secret) satisfies I1 —
every name with a prefixed tag has a data value — the state handed to apply
satisfies I1 as well. -/
theorem C3_inv_I1_preserved (spec : List (String × AutoSecretType))
    (ex : Option SecretState) (fresh : String → AutoSecretType → ByteStr)
    (hnd : (spec.map (·.1)).Nodup) (hI1 : inv_I1 (initState ex)) :
    inv_I1 (reconcile_core spec ex fresh).state :=
  inv_I1_preserved spec ex fresh hnd hI1

/-- C3 (witness): instantiation of the amended theorem on the synthesized
empty state. -/
theorem C3_witness :
    ([("a", AutoSecretType.Uuid)].map (·.1)).Nodup ∧
    inv_I1 (reconcile_core [("a", AutoSecretType.Uuid)] none (fun _ _ => [3])).state :=
  ⟨by decide,
    C3_inv_I1_preserved [("a", AutoSecretType.Uuid)] none (fun _ _ => [3]) (by decide)
      (fun _ h => Bool.noConfusion h)⟩

end AutoSecretCtrl

namespace AutoSecretCtrl

/-- C4 (witness): instantiation of the idempotence theorem on a two-entry
spec starting from the synthesized empty state, with different generator
draws on the two passes. -/
theorem C4_witness :
    (([("a", AutoSecretType.Uuid), ("b", AutoSecretType.Ulid)].map (·.1)).Nodup) ∧
    reconcile_core [("a", AutoSecretType.Uuid), ("b", AutoSecretType.Ulid)]
      (some (reconcile_core [("a", AutoSecretType.Uuid), ("b", AutoSecretType.Ulid)]
        none (fun _ _ => [1])).state) (fun _ _ => [2]) =
      ⟨(reconcile_core [("a", AutoSecretType.Uuid), ("b", AutoSecretType.Ulid)]
          none (fun _ _ => [1])).state, [],
        [("a", AutoSecretType.Uuid), ("b", AutoSecretType.Ulid)].map
          (fun p => (p.1, CheckAction.skipped))⟩ :=
  ⟨by decide,
    C4_second_reconcile_noop [("a", AutoSecretType.Uuid), ("b", AutoSecretType.Ulid)]
      none (fun _ _ => [1]) (fun _ _ => [2]) (by decide)⟩

/-- C5: if the stored prefixed tag for a name equals the hash of one
generation kind and the desired spec maps that name to a different kind, the
entry takes the "updating … due to hash change" branch and both its tag (now
the new kind's hash) and its value (a freshly generated one) are replaced;
and the digests of the two kinds `Uuid` and `Ulid` are distinct, so a
uuid→ulid change is always detected. -/
theorem C5_kind_change_regenerates (spec : List (String × AutoSecretType))
    (ex : SecretState) (fresh : String → AutoSecretType → ByteStr)
    (n : String) (cOld cNew : AutoSecretType)
    (hnd : (spec.map (·.1)).Nodup) (hmem : (n, cNew) ∈ spec)
    (htag : getA ex.annotations (annotation_name n) = some (hash cOld))
    (hne : cOld ≠ cNew) :
    ((n, CheckAction.updated) ∈ (reconcile_core spec (some ex) fresh).actions ∧
      getA (reconcile_core spec (some ex) fresh).state.annotations (annotation_name n) =
        some (hash cNew) ∧
      getA (reconcile_core spec (some ex) fresh).state.data n = some (fresh n cNew)) ∧
    hash AutoSecretType.Uuid ≠ hash AutoSecretType.Ulid :=
  ⟨kind_change_regenerates spec ex fresh n cOld cNew hnd hmem htag hne, by decide⟩

/-- C5 (witness): entry `"a"` stored as uuid, respecified as ulid. -/
theorem C5_witness :
    (([("a", AutoSecretType.Ulid)].map (·.1)).Nodup ∧
      ("a", AutoSecretType.Ulid) ∈ [("a", AutoSecretType.Ulid)] ∧
      getA (SecretState.mk [(annotation_name "a", hash AutoSecretType.Uuid)]
        [("a", [5])]).annotations (annotation_name "a") = some (hash AutoSecretType.Uuid)) ∧
    (("a", CheckAction.updated) ∈ (reconcile_core [("a", AutoSecretType.Ulid)]
        (some (SecretState.mk [(annotation_name "a", hash AutoSecretType.Uuid)] [("a", [5])]))
        (fun _ _ => [9])).actions ∧
      getA (reconcile_core [("a", AutoSecretType.Ulid)]
        (some (SecretState.mk [(annotation_name "a", hash AutoSecretType.Uuid)] [("a", [5])]))
        (fun _ _ => [9])).state.annotations (annotation_name "a") =
          some (hash AutoSecretType.Ulid) ∧
      getA (reconcile_core [("a", AutoSecretType.Ulid)]
        (some (SecretState.mk [(annotation_name "a", hash AutoSecretType.Uuid)] [("a", [5])]))
        (fun _ _ => [9])).state.data "a" = some ((fun _ _ => ([9] : ByteStr)) "a" AutoSecretType.Ulid)) ∧
    hash AutoSecretType.Uuid ≠ hash AutoSecretType.Ulid :=
  ⟨⟨by decide, by decide, by decide⟩,
    (C5_kind_change_regenerates [("a", AutoSecretType.Ulid)]
      (SecretState.mk [(annotation_name "a", hash AutoSecretType.Uuid)] [("a", [5])])
      (fun _ _ => [9]) "a" AutoSecretType.Uuid AutoSecretType.Ulid
      (by decide) (by decide) (by decide) (by decide)).1,
    (C5_kind_change_regenerates [("a", AutoSecretType.Ulid)]
      (SecretState.mk [(annotation_name "a", hash AutoSecretType.Uuid)] [("a", [5])])
      (fun _ _ => [9]) "a" AutoSecretType.Uuid AutoSecretType.Ulid
      (by decide) (by decide) (by decide) (by decide)).2⟩

/-- C6: a desired entry whose stored prefixed tag equals the hash of its
generation kind is left exactly as fetched: its tag and its data value are
unchanged, it is in neither the `to_remove` list nor a write branch — it takes
the "skipping … due to same hash" branch, so the generator is not invoked for
it. -/
theorem C6_matching_entry_untouched (spec : List (String × AutoSecretType))
    (ex : SecretState) (fresh : String → AutoSecretType → ByteStr)
    (n : String) (c : AutoSecretType)
    (hnd : (spec.map (·.1)).Nodup) (hmem : (n, c) ∈ spec)
    (htag : getA ex.annotations (annotation_name n) = some (hash c)) :
    getA (reconcile_core spec (some ex) fresh).state.annotations (annotation_name n) =
        some (hash c) ∧
      getA (reconcile_core spec (some ex) fresh).state.data n = getA ex.data n ∧
      n ∉ (reconcile_core spec (some ex) fresh).toRemove ∧
      (n, CheckAction.skipped) ∈ (reconcile_core spec (some ex) fresh).actions :=
  desired_entry_skip spec ex fresh n c hnd hmem htag

/-- C6 (witness): entry `"a"` stored and desired as uuid. -/
theorem C6_witness :
    (([("a", AutoSecretType.Uuid)].map (·.1)).Nodup ∧
      ("a", AutoSecretType.Uuid) ∈ [("a", AutoSecretType.Uuid)] ∧
      getA (SecretState.mk [(annotation_name "a", hash AutoSecretType.Uuid)]
        [("a", [5])]).annotations (annotation_name "a") = some (hash AutoSecretType.Uuid)) ∧
    (getA (reconcile_core [("a", AutoSecretType.Uuid)]
        (some (SecretState.mk [(annotation_name "a", hash AutoSecretType.Uuid)] [("a", [5])]))
        (fun _ _ => [9])).state.annotations (annotation_name "a") =
          some (hash AutoSecretType.Uuid) ∧
      getA (reconcile_core [("a", AutoSecretType.Uuid)]
        (some (SecretState.mk [(annotation_name "a", hash AutoSecretType.Uuid)] [("a", [5])]))
        (fun _ _ => [9])).state.data "a" =
        getA (SecretState.mk [(annotation_name "a", hash AutoSecretType.Uuid)]
          [("a", [5])]).data "a" ∧
      "a" ∉ (reconcile_core [("a", AutoSecretType.Uuid)]
        (some (SecretState.mk [(annotation_name "a", hash AutoSecretType.Uuid)] [("a", [5])]))
        (fun _ _ => [9])).toRemove ∧
      ("a", CheckAction.skipped) ∈ (reconcile_core [("a", AutoSecretType.Uuid)]
        (some (SecretState.mk [(annotation_name "a", hash AutoSecretType.Uuid)] [("a", [5])]))
        (fun _ _ => [9])).actions) :=
  ⟨⟨by decide, by decide, by decide⟩,
    C6_matching_entry_untouched [("a", AutoSecretType.Uuid)]
      (SecretState.mk [(annotation_name "a", hash AutoSecretType.Uuid)] [("a", [5])])
      (fun _ _ => [9]) "a" AutoSecretType.Uuid (by decide) (by decide) (by decide)⟩

end AutoSecretCtrl

namespace AutoSecretCtrl

/-- C7: when the desired-state object lacks `.metadata.namespace` (checked
first) or `.metadata.name`, `reconcile` returns the `MissingObjectKey` error
naming the missing field, and its store-operation trace is empty: neither the
get nor the apply is issued, so the store is untouched for that attempt. -/
theorem C7_missing_identity_fails_fast (resource : AutoSecretResource)
    (store : Option SecretState) (fresh : String → AutoSecretType → ByteStr) :
    (resource.metadata.nspace = none →
      reconcile resource store fresh =
        (Except.error (ControllerError.MissingObjectKey ".metadata.namespace"), [])) ∧
    (∀ v, resource.metadata.nspace = some v → resource.metadata.name = none →
      reconcile resource store fresh =
        (Except.error (ControllerError.MissingObjectKey ".metadata.name"), [])) := by
  constructor
  · intro h
    unfold reconcile
    rw [h]
  · intro v hv hn
    unfold reconcile
    rw [hv, hn]

/-- C7 (witness): instantiation on objects missing the namespace, and missing
only the name. -/
theorem C7_witness :
    reconcile ⟨⟨none, some "secret-a"⟩, []⟩ none (fun _ _ => []) =
        (Except.error (ControllerError.MissingObjectKey ".metadata.namespace"), []) ∧
      reconcile ⟨⟨some "ns", none⟩, []⟩ none (fun _ _ => []) =
        (Except.error (ControllerError.MissingObjectKey ".metadata.name"), []) :=
  ⟨(C7_missing_identity_fails_fast ⟨⟨none, some "secret-a"⟩, []⟩ none (fun _ _ => [])).1 rfl,
    (C7_missing_identity_fails_fast ⟨⟨some "ns", none⟩, []⟩ none (fun _ _ => [])).2
      "ns" rfl rfl⟩

/-- C8: the error policy requeues after exactly 15 seconds for every error
value and every context — it does not inspect the error variant, and it has
no retry-count input at all, so the delay cannot depend on how often the key
failed before. -/
theorem C8_fixed_retry_delay (e : ControllerError) (ctx : Unit) :
    error_policy e ctx = Action.requeue 15 := rfl

/-- C9: deserializing a generation-kind string succeeds exactly for `"uuid"`
(yielding `Uuid`) and `"ulid"` (yielding `Ulid`); every other string is
rejected with the serde `invalid_value` error carrying the visitor's
`expecting` description — so an unrecognized kind fails at spec-ingestion
time, before any generator call — and `TryFrom<&str>` accepts exactly the
same strings with the same values. -/
theorem C9_generation_kind_parsing (s : String) (t : AutoSecretType) :
    (AutoSecretType.visit_str s = Except.ok t ↔
      ((s = "uuid" ∧ t = AutoSecretType.Uuid) ∨ (s = "ulid" ∧ t = AutoSecretType.Ulid))) ∧
    (s ≠ "uuid" → s ≠ "ulid" →
      AutoSecretType.visit_str s = Except.error ⟨s, AutoSecretType.expecting⟩) ∧
    (AutoSecretType.try_from s = Except.ok t ↔ AutoSecretType.visit_str s = Except.ok t) := by
  unfold AutoSecretType.visit_str AutoSecretType.try_from
  by_cases h1 : s = "uuid"
  · subst h1
    rw [if_pos rfl, if_pos rfl]
    refine ⟨?_, ?_, ?_⟩
    · constructor
      · intro h
        injection h with hv
        exact Or.inl ⟨rfl, hv.symm⟩
      · rintro (⟨-, rfl⟩ | ⟨h, -⟩)
        · rfl
        · exact absurd h (by decide)
    · intro h _
      exact absurd rfl h
    · constructor
      · intro h
        injection h with hv
        rw [hv]
      · intro h
        injection h with hv
        rw [hv]
  · by_cases h2 : s = "ulid"
    · subst h2
      rw [if_neg h1, if_neg h1, if_pos rfl, if_pos rfl]
      refine ⟨?_, ?_, ?_⟩
      · constructor
        · intro h
          injection h with hv
          exact Or.inr ⟨rfl, hv.symm⟩
        · rintro (⟨h, -⟩ | ⟨-, rfl⟩)
          · exact absurd h h1
          · rfl
      · intro _ h
        exact absurd rfl h
      · constructor
        · intro h
          injection h with hv
          rw [hv]
        · intro h
          injection h with hv
          rw [hv]
    · rw [if_neg h1, if_neg h1, if_neg h2, if_neg h2]
      refine ⟨?_, ?_, ?_⟩
      · constructor
        · intro h
          exact Except.noConfusion h
        · rintro (⟨h, -⟩ | ⟨h, -⟩)
          · exact absurd h h1
          · exact absurd h h2
      · intro _ _
        rfl
      · constructor
        · intro h
          exact Except.noConfusion h
        · intro h
          exact Except.noConfusion h

/-- C9 (witness): instantiation on an unrecognized string and on `"uuid"`. -/
theorem C9_witness :
    AutoSecretType.visit_str "guid" =
        Except.error ⟨"guid", AutoSecretType.expecting⟩ ∧
      (AutoSecretType.visit_str "uuid" = Except.ok AutoSecretType.Uuid ↔
        (("uuid" = "uuid" ∧ AutoSecretType.Uuid = AutoSecretType.Uuid) ∨
          ("uuid" = "ulid" ∧ AutoSecretType.Uuid = AutoSecretType.Ulid))) :=
  ⟨(C9_generation_kind_parsing "guid" AutoSecretType.Uuid).2.1 (by decide) (by decide),
    (C9_generation_kind_parsing "uuid" AutoSecretType.Uuid).1⟩

/-- C10: `SecretExt::retain` removes exactly the data entries the supplied
predicate *accepts* — the opposite of the standard-library `retain`
convention of keeping accepted entries — together with their prefixed
annotations, leaves every other annotation untouched, and returns `true` iff
at least one entry was removed. -/
theorem C10_retain_removes_accepted (s : SecretState) (f : String → ByteStr → Bool)
    (hnd : (s.data.map (·.1)).Nodup) :
    (∀ n v, getA s.data n = some v → f n v = true →
      getA (secretRetain s f).1.data n = none ∧
      getA (secretRetain s f).1.annotations (annotation_name n) = none) ∧
    (∀ n v, getA s.data n = some v → f n v = false →
      getA (secretRetain s f).1.data n = some v) ∧
    (∀ k, (∀ p ∈ s.data, f p.1 p.2 = true → k ≠ annotation_name p.1) →
      getA (secretRetain s f).1.annotations k = getA s.annotations k) ∧
    ((secretRetain s f).2 = true ↔ ∃ p ∈ s.data, f p.1 p.2 = true) :=
  ⟨fun _ _ hget hf => retain_removes_accepted s f hget hf,
    fun _ _ hget hf => retain_keeps_rejected s f hnd hget hf,
    fun k hk => retain_ann_frame s f k hk,
    retain_modified_iff s f⟩

/-- C10 (witness): a predicate accepting `"a"` removes `"a"`'s data and tag,
keeps `"b"`, and reports a modification. -/
theorem C10_witness :
    ((([(("a" : String), ([1] : ByteStr)), ("b", [2])].map (·.1)).Nodup)) ∧
    (getA (secretRetain (SecretState.mk [(annotation_name "a", "h"), ("team", "alpha")]
        [("a", [1]), ("b", [2])]) (fun n _ => n == "a")).1.data "a" = none ∧
      getA (secretRetain (SecretState.mk [(annotation_name "a", "h"), ("team", "alpha")]
        [("a", [1]), ("b", [2])]) (fun n _ => n == "a")).1.annotations
        (annotation_name "a") = none) :=
  ⟨by decide,
    (C10_retain_removes_accepted
      (SecretState.mk [(annotation_name "a", "h"), ("team", "alpha")]
        [("a", [1]), ("b", [2])]) (fun n _ => n == "a") (by decide)).1
      "a" [1] (by decide) (by decide)⟩

end AutoSecretCtrl
